import Mathlib

/-!
Verification of the geographic data-join and choropleth pipeline of the
apprentis-auteuil-map repository (src/app.py and src/generate_map.py).

Shallow embedding conventions:
* Python floats are modelled as rationals (the claims under scrutiny concern
  order comparisons, index arithmetic and exact rounding, none of which
  depends on binary floating-point representation).
* Python strings are modelled as Lean strings (lists of characters); the
  relevant Unicode tables used by the standard library (NFKD decomposition,
  combining-class test, lowercasing, whitespace) are modelled character-wise
  for the Latin repertoire the data uses, with identity as the default for
  characters outside the modelled tables.
* Fallible code (IndexError / TypeError paths, JSON parse failures) is
  modelled with Option / Except.
* Python dicts appearing as lookup tables are modelled as association lists.
-/

/-- GeoJSON coordinate payloads: arbitrarily nested lists of numbers,
mirroring the untyped nested Python lists that
`simplify_coords` (generate_map.py lines 31-35, app.py lines 90-93)
recurses over. -/
inductive Coords where
  | num (q : ℚ)
  | list (l : List Coords)

/-- Round-half-to-even on rationals, the semantics of Python built-in
rounding used by `round(c, precision)`. -/
def round_half_even (q : ℚ) : ℤ :=
  if q - ⌊q⌋ < 1/2 then ⌊q⌋
  else if 1/2 < q - ⌊q⌋ then ⌊q⌋ + 1
  else if ⌊q⌋ % 2 = 0 then ⌊q⌋ else ⌊q⌋ + 1

/-- `round(c, 3)` from the source: round to the nearest multiple of 1/1000,
ties to even. -/
def round3 (q : ℚ) : ℚ := (round_half_even (q * 1000) : ℚ) / 1000

/-- Helper for the `isinstance(coords[0], (int, float))` branch of
`simplify_coords`: Python maps `round` over every element, raising
TypeError (modelled as `none`) if some element is not a number. -/
def allNums : List Coords → Option (List ℚ)
  | [] => some []
  | Coords.num q :: cs => (allNums cs).map (fun qs => q :: qs)
  | Coords.list _ :: _ => none

mutual
/-- `simplify_coords` (generate_map.py lines 31-35, app.py lines 90-93) with
`precision=3`.  `none` models the exceptions the Python code can raise:
IndexError on `coords[0]` for an empty list, TypeError when `round` or
subscripting meets a non-number / non-list. -/
def simplify_coords : Coords → Option Coords
  | Coords.num _ => none
  | Coords.list [] => none
  | Coords.list (Coords.num q :: rest) =>
      match allNums rest with
      | some qs => some (Coords.list ((q :: qs).map (fun x => Coords.num (round3 x))))
      | none => none
  | Coords.list (Coords.list l :: rest) =>
      match simplify_coords_list (Coords.list l :: rest) with
      | some cs => some (Coords.list cs)
      | none => none

/-- The list comprehension `[simplify_coords(c, precision) for c in coords]`:
sequential, aborting at the first exception. -/
def simplify_coords_list : List Coords → Option (List Coords)
  | [] => some []
  | c :: cs =>
      match simplify_coords c, simplify_coords_list cs with
      | some c2, some cs2 => some (c2 :: cs2)
      | _, _ => none
end

/-- First-match association-list lookup, modelling Python dict lookup for the
dict literals of the embedding. -/
def assocFind {κ β : Type} [BEq κ] (tbl : List (κ × β)) (k : κ) : Option β :=
  (tbl.find? (fun p => p.1 == k)).map (fun p => p.2)

/-- Character-wise model of the NFKD decomposition used by
`unicodedata.normalize("NFKD", name)` in `normalize_name`
(generate_map.py lines 17-23, app.py lines 241-248), tabulated for the
Latin-1 precomposed letters (plus U+0178 and NBSP) that occur in the EPCI
name data; characters outside the table decompose to themselves. -/
def nfkdTable : List (Char × List Char) :=
  [ ('À', ['A', '̀']), ('Á', ['A', '́']),
    ('Â', ['A', '̂']), ('Ã', ['A', '̃']),
    ('Ä', ['A', '̈']), ('Å', ['A', '̊']),
    ('Ç', ['C', '̧']),
    ('È', ['E', '̀']), ('É', ['E', '́']),
    ('Ê', ['E', '̂']), ('Ë', ['E', '̈']),
    ('Ì', ['I', '̀']), ('Í', ['I', '́']),
    ('Î', ['I', '̂']), ('Ï', ['I', '̈']),
    ('Ñ', ['N', '̃']),
    ('Ò', ['O', '̀']), ('Ó', ['O', '́']),
    ('Ô', ['O', '̂']), ('Õ', ['O', '̃']),
    ('Ö', ['O', '̈']),
    ('Ù', ['U', '̀']), ('Ú', ['U', '́']),
    ('Û', ['U', '̂']), ('Ü', ['U', '̈']),
    ('Ý', ['Y', '́']),
    ('à', ['a', '̀']), ('á', ['a', '́']),
    ('â', ['a', '̂']), ('ã', ['a', '̃']),
    ('ä', ['a', '̈']), ('å', ['a', '̊']),
    ('ç', ['c', '̧']),
    ('è', ['e', '̀']), ('é', ['e', '́']),
    ('ê', ['e', '̂']), ('ë', ['e', '̈']),
    ('ì', ['i', '̀']), ('í', ['i', '́']),
    ('î', ['i', '̂']), ('ï', ['i', '̈']),
    ('ñ', ['n', '̃']),
    ('ò', ['o', '̀']), ('ó', ['o', '́']),
    ('ô', ['o', '̂']), ('õ', ['o', '̃']),
    ('ö', ['o', '̈']),
    ('ù', ['u', '̀']), ('ú', ['u', '́']),
    ('û', ['u', '̂']), ('ü', ['u', '̈']),
    ('ý', ['y', '́']), ('ÿ', ['y', '̈']),
    ('Ÿ', ['Y', '̈']),
    (' ', [' ']) ]

/-- Model of `unicodedata.combining(c) != 0`: the combining diacritical
marks block U+0300 - U+036F, which covers every mark produced by
`nfkdTable`. -/
def combiningChar (c : Char) : Bool :=
  decide (0x300 ≤ c.toNat ∧ c.toNat ≤ 0x36F)

/-- One character of NFKD decomposition (identity off the table). -/
def nfkdChar (c : Char) : List Char := (assocFind nfkdTable c).getD [c]

/-- Character-wise model of `str.lower()`: ASCII letters plus the Latin-1
and Latin Extended-A uppercase letters appearing in the data. -/
def lowerTable : List (Char × Char) :=
  [ ('A', 'a'), ('B', 'b'), ('C', 'c'), ('D', 'd'), ('E', 'e'), ('F', 'f'),
    ('G', 'g'), ('H', 'h'), ('I', 'i'), ('J', 'j'), ('K', 'k'), ('L', 'l'),
    ('M', 'm'), ('N', 'n'), ('O', 'o'), ('P', 'p'), ('Q', 'q'), ('R', 'r'),
    ('S', 's'), ('T', 't'), ('U', 'u'), ('V', 'v'), ('W', 'w'), ('X', 'x'),
    ('Y', 'y'), ('Z', 'z'),
    ('À', 'à'), ('Á', 'á'), ('Â', 'â'),
    ('Ã', 'ã'), ('Ä', 'ä'), ('Å', 'å'),
    ('Æ', 'æ'), ('Ç', 'ç'), ('È', 'è'),
    ('É', 'é'), ('Ê', 'ê'), ('Ë', 'ë'),
    ('Ì', 'ì'), ('Í', 'í'), ('Î', 'î'),
    ('Ï', 'ï'), ('Ð', 'ð'), ('Ñ', 'ñ'),
    ('Ò', 'ò'), ('Ó', 'ó'), ('Ô', 'ô'),
    ('Õ', 'õ'), ('Ö', 'ö'), ('Ø', 'ø'),
    ('Ù', 'ù'), ('Ú', 'ú'), ('Û', 'û'),
    ('Ü', 'ü'), ('Ý', 'ý'), ('Þ', 'þ'),
    ('Œ', 'œ'), ('Ÿ', 'ÿ') ]

/-- One character of lowercasing (identity off the table). -/
def lowerChar (c : Char) : Char := (assocFind lowerTable c).getD c

/-- Model of the whitespace set stripped by `str.strip()`. -/
def isSpaceChar (c : Char) : Bool :=
  c == ' ' || c == '\t' || c == '\n' || c == '\r' || c == '\x0b' ||
  c == '\x0c' || c == '\u0085' || c == ' '

/-- `str.strip()`: drop leading and trailing whitespace. -/
def stripChars (l : List Char) : List Char :=
  ((l.dropWhile isSpaceChar).reverse.dropWhile isSpaceChar).reverse

/-- A character that is inert for the whole normalization pipeline: it
decomposes to itself, is not a combining mark, and is already lowercase. -/
def plainChar (e : Char) : Bool :=
  (assocFind nfkdTable e).isNone && !combiningChar e &&
    (assocFind lowerTable e).isNone

/-- `normalize_name` on a character list (generate_map.py lines 17-23,
app.py lines 241-248, 314-320 and 197-202): NFKD-decompose, remove
combining marks, lowercase, strip surrounding whitespace. -/
def normalize_chars (s : List Char) : List Char :=
  stripChars (((s.flatMap nfkdChar).filter
    (fun d => !combiningChar d)).map lowerChar)

/-- `normalize_name` on strings. -/
def normalize_name (s : String) : String := String.mk (normalize_chars s.data)

/-- A GeoJSON geometry object: its `type` tag and its `coordinates`. -/
structure Geometry where
  gtype : String
  coordinates : Coords

/-- An EPCI boundary feature with `codgeo` and `libgeo` properties and the
optional indicator attributes the enrichment pass may add; a missing
attribute (dictionary key absent in Python) is `none`. -/
structure Feature where
  geometry : Option Geometry
  codgeo : String
  libgeo : String
  qpv_count : Option ℕ := none
  chomage_F : Option ℚ := none
  chomage_H : Option ℚ := none
  chomage_T : Option ℚ := none
  taux_pauvrete : Option ℚ := none
  neets : Option ℚ := none
  sans_diplome_F : Option ℚ := none
  sans_diplome_H : Option ℚ := none
  sans_diplome_T : Option ℚ := none

/-- A GeoJSON FeatureCollection. -/
structure FeatureColl where
  features : List Feature

/-- Python truthiness of a coordinates value: the empty list and the
number 0 are falsy (`if not coords: return False`). -/
def falsyCoords : Coords → Bool
  | Coords.list [] => true
  | Coords.num q => decide (q = 0)
  | Coords.list (_ :: _) => false

/-- One subscript `c[i]`: TypeError on a number, IndexError out of range;
both are modelled as `Except.error ()` because `is_mainland_epci` catches
exactly these two exception types. -/
def coordIdx : Coords → ℕ → Except Unit Coords
  | Coords.num _, _ => Except.error ()
  | Coords.list l, i =>
      match l.get? i with
      | some c => Except.ok c
      | none => Except.error ()

/-- Iterated subscripting, e.g. `coords[0][0][0]`. -/
def coordPath : Coords → List ℕ → Except Unit Coords
  | c, [] => Except.ok c
  | c, i :: is =>
      match coordIdx c i with
      | Except.ok c2 => coordPath c2 is
      | Except.error e => Except.error e

/-- The chained comparison `-6 < lng < 10 and 41 < lat < 52` with Python
evaluation order: comparing a list raises TypeError (`Except.error`), and
the `and` short-circuits so `lat` is only inspected when the `lng`
conjunct held. -/
def bboxStrictChain (lngC latC : Coords) : Except Unit Bool :=
  match lngC with
  | Coords.list _ => Except.error ()
  | Coords.num lng =>
      if -6 < lng ∧ lng < 10 then
        match latC with
        | Coords.list _ => Except.error ()
        | Coords.num lat => Except.ok (decide (41 < lat ∧ lat < 52))
      else Except.ok false

/-- `is_mainland_epci` (app.py lines 1094-1109; identical in
generate_map.py lines 259-273): look at the first coordinate of a Polygon
or MultiPolygon and test the strict bounding box; empty coordinates give
False, other geometry types give True, and IndexError / TypeError during
extraction or comparison give True. -/
def is_mainland_epci (f : Feature) : Bool :=
  let coords := match f.geometry with
    | some g => g.coordinates
    | none => Coords.list []
  if falsyCoords coords then false
  else
    match f.geometry with
    | none => false
    | some g =>
        let res : Except Unit Bool :=
          if g.gtype = "Polygon" then
            match coordPath coords [0, 0, 0], coordPath coords [0, 0, 1] with
            | Except.ok lngC, Except.ok latC => bboxStrictChain lngC latC
            | _, _ => Except.error ()
          else if g.gtype = "MultiPolygon" then
            match coordPath coords [0, 0, 0, 0], coordPath coords [0, 0, 0, 1] with
            | Except.ok lngC, Except.ok latC => bboxStrictChain lngC latC
            | _, _ => Except.error ()
          else Except.ok true
        match res with
        | Except.ok b => b
        | Except.error _ => true

/-- The establishment bounding-box filter
`(df["lat"] >= 41) & (df["lat"] <= 52) & (df["lng"] >= -6) & (df["lng"] <= 10)`
(app.py lines 980-983, generate_map.py line 240). -/
def estab_in_bbox (lat lng : ℚ) : Bool :=
  decide (41 ≤ lat ∧ lat ≤ 52 ∧ -6 ≤ lng ∧ lng ≤ 10)

/-- The row filter applied to the establishment table (rows as
(lat, lng) pairs). -/
def filter_establishments (rows : List (ℚ × ℚ)) : List (ℚ × ℚ) :=
  rows.filter (fun r => estab_in_bbox r.1 r.2)

/-- A Polygon feature whose first coordinate is `[lng, lat]`, the shape the
boundary file provides to `is_mainland_epci`. -/
def mkPolyFeature (lng lat : ℚ) : Feature :=
  { geometry := some
      { gtype := "Polygon",
        coordinates := Coords.list [Coords.list [Coords.list
          [Coords.num lng, Coords.num lat]]] },
    codgeo := "", libgeo := "" }

/-- A row of the poverty CSV (name-keyed indicator table). -/
structure PauvRow where
  libgeo : String
  taux_pauvrete : ℚ

/-- `df.drop_duplicates(subset=key, keep="first")`: keep the first row of
each key group, in input order. -/
def drop_duplicates_first {α κ : Type} [DecidableEq κ] (key : α → κ) :
    List α → List α
  | [] => []
  | a :: l =>
      a :: drop_duplicates_first key (l.filter (fun b => decide (key b ≠ key a)))
termination_by l => l.length
decreasing_by
  simp only [List.length_cons]
  exact Nat.lt_succ_of_le (List.length_filter_le _ _)

/-- `load_pauvrete_epci` (app.py lines 250-263; same steps in
generate_map.py lines 137-142): normalize the name key, keep only rows
whose normalized name exists among the boundary names, then drop duplicate
keys keeping the first occurrence.  (The final `to_dict` keying is not
needed by the claims.) -/
def load_pauvrete (rows : List PauvRow) (validNames : List String) :
    List PauvRow :=
  drop_duplicates_first (fun r => normalize_name r.libgeo)
    (rows.filter (fun r => decide (normalize_name r.libgeo ∈ validNames)))

/-- A row of the NEETs CSV (code-keyed indicator table). -/
structure NeetsRow where
  codgeo : String
  part_non_inseres : ℚ

/-- `load_neets_epci` (app.py lines 267-282; same filter in
generate_map.py lines 148-151): keep only rows whose code exists among the
boundary codes. -/
def load_neets (rows : List NeetsRow) (validCodes : List String) :
    List NeetsRow :=
  rows.filter (fun r => decide (r.codgeo ∈ validCodes))

/-- The unemployment values attached per EPCI code after the pivot
(`chomage_F`, `chomage_H`, `chomage_T`); a pivot hole is `none`. -/
structure ChomageRec where
  chomage_F : Option ℚ
  chomage_H : Option ℚ
  chomage_T : Option ℚ

/-- The no-diploma values attached per EPCI code after the pivot. -/
structure SansDiplomeRec where
  sans_diplome_F : Option ℚ
  sans_diplome_H : Option ℚ
  sans_diplome_T : Option ℚ

/-- The enrichment body of `get_epci_with_indicators` (app.py lines
343-366; same loop in generate_map.py lines 285-303) for one feature:
always writes `qpv_count` (default 0) and copies each indicator onto the
feature when its join key is present in the corresponding table. -/
def enrich_feature (qpvCounts : List (String × ℕ))
    (chomage : List (String × ChomageRec))
    (pauvrete : List (String × Option ℚ))
    (neets : List (String × Option ℚ))
    (sansDiplome : List (String × SansDiplomeRec)) (f : Feature) : Feature :=
  let f1 := { f with qpv_count := some ((assocFind qpvCounts f.codgeo).getD 0) }
  let f2 := match assocFind chomage f.codgeo with
    | some ch =>
        { f1 with
          chomage_F := ch.chomage_F,
          chomage_H := ch.chomage_H,
          chomage_T := ch.chomage_T }
    | none => f1
  let f3 := match assocFind pauvrete (normalize_name f.libgeo) with
    | some v => { f2 with taux_pauvrete := v }
    | none => f2
  let f4 := match assocFind neets f.codgeo with
    | some v => { f3 with neets := v }
    | none => f3
  match assocFind sansDiplome f.codgeo with
  | some sd =>
      { f4 with
        sans_diplome_F := sd.sans_diplome_F,
        sans_diplome_H := sd.sans_diplome_H,
        sans_diplome_T := sd.sans_diplome_T }
  | none => f4

/-- The enrichment loop over the deep copy of the boundary collection. -/
def enrich_features (qpvCounts : List (String × ℕ))
    (chomage : List (String × ChomageRec))
    (pauvrete : List (String × Option ℚ))
    (neets : List (String × Option ℚ))
    (sansDiplome : List (String × SansDiplomeRec)) (fc : FeatureColl) :
    FeatureColl :=
  { features := fc.features.map
      (enrich_feature qpvCounts chomage pauvrete neets sansDiplome) }

/-- `get_epci_with_indicators` (app.py lines 309-368): `None` stays `None`;
otherwise the loaded collection is deep-copied (value copy in this
embedding) and the copy is enriched in place, so the result is a new
collection built from the original. -/
def get_epci_with_indicators (qpvCounts : List (String × ℕ))
    (chomage : List (String × ChomageRec))
    (pauvrete : List (String × Option ℚ))
    (neets : List (String × Option ℚ))
    (sansDiplome : List (String × SansDiplomeRec))
    (epciOriginal : Option FeatureColl) : Option FeatureColl :=
  epciOriginal.map (enrich_features qpvCounts chomage pauvrete neets sansDiplome)

/-- `quantile_breaks` as computed in app.py lines 1125-1133: sort the
values, then for i = 1 .. binCount-1 take the sorted value at position
`int(n * i / binCount)` clamped to n-1. -/
def quantile_breaks (values : List ℚ) (binCount : ℕ) : List ℚ :=
  let sortedVals := values.insertionSort (fun a b => a ≤ b)
  let n := values.length
  (List.range (binCount - 1)).map
    (fun i => sortedVals.getD (min (n * (i + 1) / binCount) (n - 1)) 0)

/-- The unclamped variant used by generate_map.py lines 315-318 (and the
per-indicator `breaks` at lines 356-359 etc.): position
`int(n * i / binCount)` without the `min(idx, n-1)` clamp. -/
def quantile_breaks_gm (values : List ℚ) (binCount : ℕ) : List ℚ :=
  let sortedVals := values.insertionSort (fun a b => a ≤ b)
  let n := values.length
  (List.range (binCount - 1)).map
    (fun i => sortedVals.getD (n * (i + 1) / binCount) 0)

/-- The scan of `get_color_idx`: index of the first breakpoint with
`value <= threshold`, if any. -/
def first_le_idx (value : ℚ) : List ℚ → Option ℕ
  | [] => none
  | t :: ts =>
      if value ≤ t then some 0
      else (first_le_idx value ts).map (fun i => i + 1)

/-- `get_color_idx` (app.py lines 1135-1139, generate_map.py lines
320-324): first breakpoint index with `value <= threshold`, else the last
bin `len(colors) - 1`. -/
def get_color_idx (breaks : List ℚ) (numColors : ℕ) (value : ℚ) : ℕ :=
  (first_le_idx value breaks).getD (numColors - 1)

/-- The isochrone cache: a JSON object mapping string keys to coordinate
arrays. -/
abbrev IsoCache : Type := List (String × Coords)

/-- `load_isochrone_cache` (app.py lines 43-51, generate_map.py lines
168-177).  The disk state is encoded as: `none` = file absent,
`some none` = file exists but `json.load` raises, `some (some c)` = file
parses to `c`.  An absent or unparsable file yields the empty cache. -/
def load_isochrone_cache (file : Option (Option IsoCache)) : IsoCache :=
  match file with
  | none => []
  | some none => []
  | some (some c) => c

/-- The session-state reconciliation block (app.py lines 843-862).
`mem = none` models the first run (no `isochrone_cache` in session state):
the disk cache is loaded into memory.  Otherwise entry counts are
compared: the strictly larger side is propagated wholesale (memory saved
to disk, or disk reloaded into memory); equal counts leave both sides
untouched.  The pair returned is (memory after, disk after), with the
disk write modelled as succeeding. -/
def sync_isochrone_cache (mem : Option IsoCache) (disk : IsoCache) :
    IsoCache × IsoCache :=
  match mem with
  | none => (disk, disk)
  | some m =>
      if disk.length < m.length then (m, m)
      else if m.length < disk.length then (disk, disk)
      else (m, disk)

/-!  Rounding lemmas. -/

theorem round_half_even_intCast (n : ℤ) : round_half_even (n : ℚ) = n := by
  simp [round_half_even]

theorem round3_idem (q : ℚ) : round3 (round3 q) = round3 q := by
  unfold round3
  rw [div_mul_cancel₀ _ (by norm_num : (1000 : ℚ) ≠ 0), round_half_even_intCast]

theorem allNums_map_num (f : ℚ → ℚ) (qs : List ℚ) :
    allNums (qs.map (fun x => Coords.num (f x))) = some (qs.map f) := by
  induction qs with
  | nil => rfl
  | cons q qs ih => simp [allNums, ih]

/-- `simplify_coords` only ever returns a list node. -/
theorem simplify_coords_shape {x y : Coords} (h : simplify_coords x = some y) :
    ∃ m, y = Coords.list m := by
  cases x with
  | num q => simp [simplify_coords] at h
  | list l =>
    cases l with
    | nil => simp [simplify_coords] at h
    | cons c0 rest =>
      cases c0 with
      | num q =>
        rw [simplify_coords] at h
        cases hn : allNums rest with
        | some qs => rw [hn] at h; exact ⟨_, (Option.some_inj.mp h).symm⟩
        | none => rw [hn] at h; exact absurd h (by simp)
      | list l0 =>
        rw [simplify_coords] at h
        cases hn : simplify_coords_list (Coords.list l0 :: rest) with
        | some cs => rw [hn] at h; exact ⟨_, (Option.some_inj.mp h).symm⟩
        | none => rw [hn] at h; exact absurd h (by simp)

mutual
/-- Outputs of `simplify_coords` are fixpoints of `simplify_coords`. -/
theorem simplify_coords_fix :
    ∀ (c : Coords) (c' : Coords), simplify_coords c = some c' →
      simplify_coords c' = some c'
  | Coords.num _, _, h => by simp [simplify_coords] at h
  | Coords.list [], _, h => by simp [simplify_coords] at h
  | Coords.list (Coords.num q :: rest), c', h => by
      rw [simplify_coords] at h
      cases hn : allNums rest with
      | none => rw [hn] at h; exact absurd h (by simp)
      | some qs =>
        rw [hn] at h
        have hc' := (Option.some_inj.mp h).symm
        subst hc'
        rw [List.map_cons, simplify_coords, allNums_map_num]
        simp only [Option.some_inj, Coords.list.injEq]
        rw [List.map_cons, round3_idem, List.map_map]
        exact congrArg _ (List.map_congr_left (fun x _ => by
          simp [Function.comp, round3_idem]))
  | Coords.list (Coords.list l0 :: rest), c', h => by
      rw [simplify_coords] at h
      cases hn : simplify_coords_list (Coords.list l0 :: rest) with
      | none => rw [hn] at h; exact absurd h (by simp)
      | some cs =>
        rw [hn] at h
        have hc' := (Option.some_inj.mp h).symm
        subst hc'
        have hfix := simplify_coords_list_fix _ _ hn
        cases cs with
        | nil =>
          rw [simplify_coords_list] at hn
          cases h1 : simplify_coords (Coords.list l0) with
          | none => rw [h1] at hn; exact absurd hn (by simp)
          | some c2 =>
            rw [h1] at hn
            cases h2 : simplify_coords_list rest with
            | none => rw [h2] at hn; exact absurd hn (by simp)
            | some cs2 => rw [h2] at hn; exact absurd hn (by simp)
        | cons c2 cs2 =>
          rw [simplify_coords_list] at hn
          cases h1 : simplify_coords (Coords.list l0) with
          | none => rw [h1] at hn; exact absurd hn (by simp)
          | some c2' =>
            rw [h1] at hn
            cases h2 : simplify_coords_list rest with
            | none => rw [h2] at hn; exact absurd hn (by simp)
            | some cs2' =>
              rw [h2] at hn
              obtain ⟨he1, he2⟩ : c2' = c2 ∧ cs2' = cs2 := by
                have := Option.some_inj.mp hn
                exact ⟨(List.cons.injEq _ _ _ _ ▸ this).1,
                       (List.cons.injEq _ _ _ _ ▸ this).2⟩
              subst he1; subst he2
              obtain ⟨m, hm⟩ := simplify_coords_shape h1
              subst hm
              rw [simplify_coords, hfix]

theorem simplify_coords_list_fix :
    ∀ (cs : List Coords) (cs' : List Coords), simplify_coords_list cs = some cs' →
      simplify_coords_list cs' = some cs'
  | [], _, h => by
      simp [simplify_coords_list] at h
      subst h; rfl
  | c :: cs, cs', h => by
      rw [simplify_coords_list] at h
      cases h1 : simplify_coords c with
      | none => rw [h1] at h; exact absurd h (by simp)
      | some c2 =>
        rw [h1] at h
        cases h2 : simplify_coords_list cs with
        | none => rw [h2] at h; exact absurd h (by simp)
        | some cs2 =>
          rw [h2] at h
          have hc' := (Option.some_inj.mp h).symm
          subst hc'
          rw [simplify_coords_list, simplify_coords_fix c c2 h1,
              simplify_coords_list_fix cs cs2 h2]
end

/-- Claim C10: `simplify_coords` is idempotent — whenever an application
succeeds (no IndexError / TypeError), re-applying it to the result succeeds
and returns the result unchanged: rounding every number to 3 decimal places
is stable under repetition and the nesting structure is preserved. -/
theorem claim_C10 (c c' : Coords) (h : simplify_coords c = some c') :
    simplify_coords c' = some c' :=
  simplify_coords_fix c c' h

/-- Witness for claim C10 at the concrete input `[1.2345]`, which rounds
(half-to-even) to `[1.234]` and is then a fixpoint. -/
theorem claim_C10_witness :
    simplify_coords (Coords.list [Coords.num (617/500)]) =
      some (Coords.list [Coords.num (617/500)]) :=
  claim_C10 (Coords.list [Coords.num (2469/2000)]) _ (by
    rw [simplify_coords]
    simp only [allNums]
    have hfr : Int.fract ((2469 : ℚ)/2) = 1/2 := by
      rw [Int.fract]; norm_num
    norm_num [round3, round_half_even, hfr])

/-!  KeyNormalizer lemmas. -/

theorem assocFind_eq_some {κ β : Type} [BEq κ] [LawfulBEq κ]
    {tbl : List (κ × β)} {k : κ} {v : β} (h : assocFind tbl k = some v) :
    ∃ p, p ∈ tbl ∧ p.1 = k ∧ p.2 = v := by
  unfold assocFind at h
  rw [Option.map_eq_some'] at h
  obtain ⟨p, hp, hv⟩ := h
  exact ⟨p, List.mem_of_find?_eq_some hp, by
    have := List.find?_some hp
    exact eq_of_beq this, hv⟩

/-- Every non-combining character of an NFKD decomposition lowercases to a
pipeline-inert character (checked over the finite table). -/
theorem nfkdTable_closure : ∀ p ∈ nfkdTable, ∀ d ∈ p.2,
    combiningChar d = false → plainChar (lowerChar d) = true := by decide

/-- Every lowercase image of a non-decomposable character is
pipeline-inert (checked over the finite table). -/
theorem lowerTable_closure : ∀ p ∈ lowerTable,
    (assocFind nfkdTable p.1).isNone = true → plainChar p.2 = true := by decide

theorem plainChar_nfkd {e : Char} (h : plainChar e = true) : nfkdChar e = [e] := by
  unfold plainChar at h
  simp only [Bool.and_eq_true, Option.isNone_iff_eq_none] at h
  simp [nfkdChar, h.1.1]

theorem plainChar_not_combining {e : Char} (h : plainChar e = true) :
    combiningChar e = false := by
  unfold plainChar at h
  simp only [Bool.and_eq_true, Bool.not_eq_true'] at h
  exact h.1.2

theorem plainChar_lower {e : Char} (h : plainChar e = true) : lowerChar e = e := by
  unfold plainChar at h
  simp only [Bool.and_eq_true, Option.isNone_iff_eq_none] at h
  simp [lowerChar, h.2]

/-- Closure of the per-character pipeline: any character surviving
decomposition and mark-filtering becomes inert after lowercasing. -/
theorem pipeline_closure (c d : Char) (hd : d ∈ nfkdChar c)
    (hcomb : combiningChar d = false) : plainChar (lowerChar d) = true := by
  unfold nfkdChar at hd
  cases hc : assocFind nfkdTable c with
  | some v =>
    rw [hc] at hd
    obtain ⟨p, hmem, _, hv⟩ := assocFind_eq_some hc
    exact nfkdTable_closure p hmem d (hv ▸ hd) hcomb
  | none =>
    rw [hc] at hd
    simp only [Option.getD_none, List.mem_singleton] at hd
    subst hd
    cases hl : assocFind lowerTable d with
    | some e =>
      obtain ⟨p, hmem, hk, hv⟩ := assocFind_eq_some hl
      have := lowerTable_closure p hmem (by rw [hk, hc]; rfl)
      rw [lowerChar, hl]
      exact hv ▸ this
    | none =>
      rw [lowerChar, hl]
      simp [plainChar, hc, hl, hcomb]

theorem flatMap_eq_self_of_fix {l : List Char} (h : ∀ e ∈ l, nfkdChar e = [e]) :
    l.flatMap nfkdChar = l := by
  induction l with
  | nil => rfl
  | cons a l ih =>
    rw [List.flatMap_cons, h a (by simp), ih (fun e he => h e (by simp [he]))]
    rfl

theorem map_eq_self_of_fix {l : List Char} {f : Char → Char}
    (h : ∀ e ∈ l, f e = e) : l.map f = l := by
  induction l with
  | nil => rfl
  | cons a l ih =>
    rw [List.map_cons, h a (by simp), ih (fun e he => h e (by simp [he]))]

/-- On a list of pipeline-inert characters the decompose/filter/lowercase
stages are the identity. -/
theorem pipeline_fix {t : List Char} (h : ∀ e ∈ t, plainChar e = true) :
    ((t.flatMap nfkdChar).filter (fun d => !combiningChar d)).map lowerChar = t := by
  rw [flatMap_eq_self_of_fix (fun e he => plainChar_nfkd (h e he))]
  rw [List.filter_eq_self.mpr (fun e he => by
    simp [plainChar_not_combining (h e he)])]
  exact map_eq_self_of_fix (fun e he => plainChar_lower (h e he))

theorem dropWhile_head_false {p : Char → Bool} :
    ∀ (l : List Char) (x : Char), (l.dropWhile p).head? = some x → p x = false
  | [], x, h => by simp [List.dropWhile] at h
  | a :: t, x, h => by
    rw [List.dropWhile_cons] at h
    by_cases ha : p a
    · rw [if_pos ha] at h
      exact dropWhile_head_false t x h
    · rw [if_neg ha] at h
      simp only [List.head?_cons, Option.some_inj] at h
      subst h
      exact Bool.not_eq_true _ ▸ eq_false_of_ne_true ha

theorem dropWhile_of_head_false {p : Char → Bool} {l : List Char}
    (h : ∀ x, l.head? = some x → p x = false) : l.dropWhile p = l := by
  cases l with
  | nil => rfl
  | cons a t =>
    rw [List.dropWhile_cons, if_neg]
    rw [h a rfl]
    simp

theorem dropWhile_idem {p : Char → Bool} (l : List Char) :
    (l.dropWhile p).dropWhile p = l.dropWhile p :=
  dropWhile_of_head_false (fun x hx => dropWhile_head_false l x hx)

theorem stripChars_idem (t : List Char) :
    stripChars (stripChars t) = stripChars t := by
  unfold stripChars
  set A := t.dropWhile isSpaceChar with hA
  set B := (A.reverse.dropWhile isSpaceChar).reverse with hB
  have hBrev : B.reverse = A.reverse.dropWhile isSpaceChar := by
    rw [hB, List.reverse_reverse]
  have hBprefA : ∃ r, B ++ r = A := by
    have hsuf : B.reverse <:+ A.reverse := hBrev ▸ List.dropWhile_suffix _
    have := List.IsSuffix.reverse hsuf
    rw [List.reverse_reverse, List.reverse_reverse] at this
    exact this
  have hBdrop : B.dropWhile isSpaceChar = B := by
    apply dropWhile_of_head_false
    intro x hx
    obtain ⟨r, hr⟩ := hBprefA
    have hAhead : A.head? = some x := by
      cases hBc : B with
      | nil => rw [hBc] at hx; exact absurd hx (by simp)
      | cons b B2 =>
        rw [hBc] at hx
        rw [← hr, hBc]
        simpa using hx
    cases hAcase : A with
    | nil => rw [hAcase] at hAhead; exact absurd hAhead (by simp)
    | cons a A2 =>
      rw [hAcase] at hAhead
      simp only [List.head?_cons, Option.some_inj] at hAhead
      have hfix : A.dropWhile isSpaceChar = A := dropWhile_idem t
      rw [hAcase, List.dropWhile_cons] at hfix
      by_cases hx2 : isSpaceChar a
      · rw [if_pos hx2] at hfix
        have hlen : (A2.dropWhile isSpaceChar).length ≤ A2.length :=
          List.Sublist.length_le (List.dropWhile_sublist _)
        have hlen2 : (A2.dropWhile isSpaceChar).length = A2.length + 1 := by
          rw [hfix]; rfl
        omega
      · rw [← hAhead]
        exact eq_false_of_ne_true hx2
  rw [hBdrop, hBrev, dropWhile_idem, ← hBrev, List.reverse_reverse]

theorem mem_stripChars {t : List Char} {e : Char} (h : e ∈ stripChars t) :
    e ∈ t := by
  unfold stripChars at h
  rw [List.mem_reverse] at h
  have h2 := (List.dropWhile_sublist (l := (t.dropWhile isSpaceChar).reverse)
    (p := isSpaceChar)).subset h
  rw [List.mem_reverse] at h2
  exact (List.dropWhile_sublist _).subset h2

theorem mem_normalize_chars_plain {s : List Char} {e : Char}
    (h : e ∈ normalize_chars s) : plainChar e = true := by
  unfold normalize_chars at h
  have h2 := mem_stripChars h
  rw [List.mem_map] at h2
  obtain ⟨d, hd, he⟩ := h2
  rw [List.mem_filter] at hd
  obtain ⟨hdm, hdc⟩ := hd
  rw [List.mem_flatMap] at hdm
  obtain ⟨c, _, hdn⟩ := hdm
  subst he
  exact pipeline_closure c d hdn (by
    revert hdc
    cases combiningChar d <;> simp)

theorem normalize_chars_idem (s : List Char) :
    normalize_chars (normalize_chars s) = normalize_chars s := by
  conv_lhs => rw [normalize_chars]
  rw [pipeline_fix (fun e he => mem_normalize_chars_plain he)]
  rw [show stripChars (normalize_chars s) =
      stripChars (stripChars (((s.flatMap nfkdChar).filter
        (fun d => !combiningChar d)).map lowerChar)) from rfl]
  rw [stripChars_idem]
  rfl

/-- Claim C7: `normalize` (NFKD decomposition, removal of diacritical
marks, lowercasing, whitespace trimming) is idempotent on every string. -/
theorem claim_C7 (x : String) :
    normalize_name (normalize_name x) = normalize_name x := by
  unfold normalize_name
  exact congrArg String.mk (normalize_chars_idem x.data)

/-!  IndicatorJoiner lemmas. -/

/-- Filtering by a predicate implied by the search predicate does not
change the first match. -/
theorem find?_filter_eq {α : Type} (l : List α) (p q : α → Bool)
    (h : ∀ x, p x = true → q x = true) :
    (l.filter q).find? p = l.find? p := by
  induction l with
  | nil => rfl
  | cons a t ih =>
    by_cases hq : q a
    · rw [List.filter_cons_of_pos hq]
      by_cases hp : p a
      · rw [List.find?_cons_of_pos _ hp, List.find?_cons_of_pos _ hp]
      · rw [List.find?_cons_of_neg _ hp, List.find?_cons_of_neg _ hp, ih]
    · have hp : ¬ p a = true := fun hpa => hq (h a hpa)
      rw [List.filter_cons_of_neg hq, List.find?_cons_of_neg _ hp, ih]

theorem drop_duplicates_first_sublist {α κ : Type} [DecidableEq κ]
    (key : α → κ) : ∀ (l : List α), List.Sublist (drop_duplicates_first key l) l
  | [] => by rw [drop_duplicates_first]
  | a :: l => by
      rw [drop_duplicates_first]
      exact List.Sublist.cons₂ a
        ((drop_duplicates_first_sublist key _).trans (List.filter_sublist l))
termination_by l => l.length
decreasing_by
  simp only [List.length_cons]
  exact Nat.lt_succ_of_le (List.length_filter_le _ _)

theorem drop_duplicates_first_find? {α κ : Type} [DecidableEq κ]
    (key : α → κ) (k : κ) :
    ∀ (l : List α), (drop_duplicates_first key l).find? (fun x => key x == k) =
      l.find? (fun x => key x == k)
  | [] => by rw [drop_duplicates_first]
  | a :: l => by
      rw [drop_duplicates_first]
      by_cases hak : (key a == k) = true
      · rw [@List.find?_cons_of_pos _ (fun x => key x == k) a _ hak,
            @List.find?_cons_of_pos _ (fun x => key x == k) a l hak]
      · rw [@List.find?_cons_of_neg _ (fun x => key x == k) a _ hak,
            @List.find?_cons_of_neg _ (fun x => key x == k) a l hak]
        rw [drop_duplicates_first_find? key k _]
        apply find?_filter_eq
        intro x hx
        have hxk : key x = k := eq_of_beq hx
        have hk : ¬ (key a = k) := fun hc => hak (beq_iff_eq.mpr hc)
        simp only [decide_eq_true_eq]
        intro hco
        exact hk (hco ▸ hxk)
termination_by l => l.length
decreasing_by
  simp only [List.length_cons]
  exact Nat.lt_succ_of_le (List.length_filter_le _ _)

theorem drop_duplicates_first_nodup {α κ : Type} [DecidableEq κ]
    (key : α → κ) :
    ∀ (l : List α), ((drop_duplicates_first key l).map key).Nodup
  | [] => by rw [drop_duplicates_first]; exact List.nodup_nil
  | a :: l => by
      rw [drop_duplicates_first, List.map_cons, List.nodup_cons]
      constructor
      · intro hmem
        rw [List.mem_map] at hmem
        obtain ⟨b, hb, hkb⟩ := hmem
        have hb2 := (drop_duplicates_first_sublist key _).subset hb
        have := List.of_mem_filter hb2
        simp only [decide_eq_true_eq] at this
        exact this hkb
      · exact drop_duplicates_first_nodup key _
termination_by l => l.length
decreasing_by
  simp only [List.length_cons]
  exact Nat.lt_succ_of_le (List.length_filter_le _ _)

/-- Claim C5: in the by-name join, rows are deduplicated on the normalized
name key keeping exactly the first occurrence in input order: the output
is an order-preserving sublist of the input, its keys are pairwise
distinct, and for any input row whose key passes the name filter, the row
retained for that key is precisely the first input row carrying it
(the loader is a total function, so this is deterministic and raises no
error). -/
theorem claim_C5 (rows : List PauvRow) (validNames : List String) :
    List.Sublist (load_pauvrete rows validNames) rows ∧
    ((load_pauvrete rows validNames).map
      (fun r => normalize_name r.libgeo)).Nodup ∧
    ∀ a ∈ rows, normalize_name a.libgeo ∈ validNames →
      (load_pauvrete rows validNames).find?
          (fun x => normalize_name x.libgeo == normalize_name a.libgeo) =
        rows.find?
          (fun x => normalize_name x.libgeo == normalize_name a.libgeo) ∧
      ∃ b, rows.find?
          (fun x => normalize_name x.libgeo == normalize_name a.libgeo) = some b := by
  refine ⟨?_, ?_, ?_⟩
  · exact (drop_duplicates_first_sublist _ _).trans (List.filter_sublist _)
  · exact drop_duplicates_first_nodup _ _
  · intro a ha hmem
    constructor
    · rw [load_pauvrete, drop_duplicates_first_find?]
      apply find?_filter_eq
      intro x hx
      have hxa : normalize_name x.libgeo = normalize_name a.libgeo := eq_of_beq hx
      simp only [decide_eq_true_eq]
      rw [hxa]
      exact hmem
    · have : (rows.find?
          (fun x => normalize_name x.libgeo == normalize_name a.libgeo)).isSome := by
        rw [List.find?_isSome]
        exact ⟨a, ha, beq_self_eq_true _⟩
      obtain ⟨b, hb⟩ := Option.isSome_iff_exists.mp this
      exact ⟨b, hb⟩

/-- Witness for claim C5: two rows normalizing to the key "metz"; the
first one (value 5) is the one retained. -/
theorem claim_C5_witness :
    (load_pauvrete [⟨"Metz", 5⟩, ⟨"METZ", 6⟩] ["metz"]).find?
        (fun x => normalize_name x.libgeo == normalize_name "Metz") =
      ([⟨"Metz", 5⟩, ⟨"METZ", 6⟩] : List PauvRow).find?
        (fun x => normalize_name x.libgeo == normalize_name "Metz") :=
  ((claim_C5 [⟨"Metz", 5⟩, ⟨"METZ", 6⟩] ["metz"]).2.2 ⟨"Metz", 5⟩
    (by simp) (by decide)).1

/-- Claim C6: loaders only retain indicator rows whose join key occurs in
the boundary data (codes for code joins, normalized names for name
joins); a table with codes 001, 002, 999 joined against boundary codes
001, 002 keeps exactly the two matching rows and drops 999. -/
theorem claim_C6 :
    (∀ (rows : List NeetsRow) (validCodes : List String),
      ∀ r ∈ load_neets rows validCodes, r.codgeo ∈ validCodes) ∧
    (∀ (rows : List PauvRow) (validNames : List String),
      ∀ r ∈ load_pauvrete rows validNames,
        normalize_name r.libgeo ∈ validNames) ∧
    (load_neets [⟨"001", 1⟩, ⟨"002", 2⟩, ⟨"999", 3⟩] ["001", "002"]).map
        (fun r => r.codgeo) = ["001", "002"] := by
  refine ⟨?_, ?_, ?_⟩
  · intro rows validCodes r hr
    have := List.of_mem_filter hr
    exact of_decide_eq_true this
  · intro rows validNames r hr
    have hr2 := (drop_duplicates_first_sublist _ _).subset hr
    have := List.of_mem_filter hr2
    exact of_decide_eq_true this
  · decide

/-- Witness for claim C6 applied at a concrete retained row. -/
theorem claim_C6_witness : ("001" : String) ∈ (["001"] : List String) :=
  claim_C6.1 [⟨"001", 1⟩] ["001"] ⟨"001", 1⟩ (by
    rw [load_neets]
    simp)

/-!  ChoroplethClassifier lemmas. -/

theorem first_le_idx_none_iff (v : ℚ) (l : List ℚ) :
    first_le_idx v l = none ↔ ∀ t ∈ l, ¬ v ≤ t := by
  induction l with
  | nil => simp [first_le_idx]
  | cons t ts ih =>
    rw [first_le_idx]
    by_cases hv : v ≤ t
    · simp [hv]
    · simp only [if_neg hv, List.mem_cons]
      constructor
      · intro h x hx
        rcases hx with hx | hx
        · exact hx ▸ hv
        · exact (ih.mp (by
            cases hfi : first_le_idx v ts with
            | none => rfl
            | some i => rw [hfi] at h; exact absurd h (by simp))) x hx
      · intro h
        rw [ih.mpr (fun x hx => h x (Or.inr hx))]
        rfl

theorem first_le_idx_lt_length {v : ℚ} :
    ∀ {l : List ℚ} {i : ℕ}, first_le_idx v l = some i → i < l.length := by
  intro l
  induction l with
  | nil => intro i h; simp [first_le_idx] at h
  | cons t ts ih =>
    intro i h
    rw [first_le_idx] at h
    by_cases hv : v ≤ t
    · rw [if_pos hv] at h
      simp only [Option.some_inj] at h
      subst h
      simp
    · rw [if_neg hv] at h
      cases hfi : first_le_idx v ts with
      | none => rw [hfi] at h; exact absurd h (by simp)
      | some j =>
        rw [hfi] at h
        simp only [Option.map_some', Option.some_inj] at h
        subst h
        have := ih hfi
        simp only [List.length_cons]
        omega

theorem first_le_idx_eq_some {v : ℚ} :
    ∀ (l : List ℚ) (i : ℕ), i < l.length → v ≤ l.getD i 0 →
      (∀ j, j < i → ¬ v ≤ l.getD j 0) → first_le_idx v l = some i := by
  intro l
  induction l with
  | nil => intro i hi; simp at hi
  | cons t ts ih =>
    intro i hi hv hj
    rw [first_le_idx]
    by_cases hvt : v ≤ t
    · rw [if_pos hvt]
      cases i with
      | zero => rfl
      | succ i2 => exact absurd hvt (hj 0 (Nat.succ_pos _))
    · rw [if_neg hvt]
      cases i with
      | zero => exact absurd hv hvt
      | succ i2 =>
        rw [ih i2 (by simpa using hi) (by simpa using hv)
          (fun j hji => by
            have := hj (j + 1) (by omega)
            simpa using this)]
        rfl

/-- Claim C4: `get_color_idx` returns the first breakpoint index with
`value <= breaks[i]`; when the value exceeds every breakpoint it returns
the last bin `numColors - 1`; and under the program invariant
`breaks.length + 1 = numColors` the result is always a valid palette
index. -/
theorem claim_C4 (breaks : List ℚ) (numColors : ℕ) (value : ℚ) :
    ((∀ t ∈ breaks, ¬ value ≤ t) →
      get_color_idx breaks numColors value = numColors - 1) ∧
    (∀ i, i < breaks.length → value ≤ breaks.getD i 0 →
      (∀ j, j < i → ¬ value ≤ breaks.getD j 0) →
      get_color_idx breaks numColors value = i) ∧
    (breaks.length + 1 = numColors →
      get_color_idx breaks numColors value < numColors) := by
  refine ⟨?_, ?_, ?_⟩
  · intro h
    rw [get_color_idx, (first_le_idx_none_iff value breaks).mpr h]
    rfl
  · intro i hi hv hj
    rw [get_color_idx, first_le_idx_eq_some breaks i hi hv hj]
    rfl
  · intro hlen
    rw [get_color_idx]
    cases hfi : first_le_idx value breaks with
    | none => simp only [Option.getD_none]; omega
    | some i =>
      have := first_le_idx_lt_length hfi
      simp only [Option.getD_some]
      omega

/-- Witness for claim C4: value 5 exceeds both breakpoints of `[1, 2]`,
so with a 3-color palette it lands in the last bin, index 2. -/
theorem claim_C4_witness : get_color_idx [1, 2] 3 5 = 3 - 1 :=
  (claim_C4 [1, 2] 3 5).1 (by
    intro t ht
    rcases List.mem_cons.mp ht with h | h
    · subst h; norm_num
    · rcases List.mem_cons.mp h with h2 | h2
      · subst h2; norm_num
      · simp at h2)

theorem sorted_getD_le {l : List ℚ} (hs : List.Sorted (fun a b => a ≤ b) l)
    {a b : ℕ} (hab : a ≤ b) (hb : b < l.length) :
    l.getD a 0 ≤ l.getD b 0 := by
  rcases Nat.eq_or_lt_of_le hab with heq | hlt
  · subst heq; exact le_refl _
  · have ha : a < l.length := lt_trans hlt hb
    rw [List.getD_eq_getElem?_getD, List.getD_eq_getElem?_getD,
        List.getElem?_eq_getElem ha, List.getElem?_eq_getElem hb]
    exact List.pairwise_iff_getElem.mp hs a b ha hb hlt

/-- Claim C3: for a non-empty value list, `quantile_breaks` sorts the
values ascending and yields exactly `binCount - 1` breakpoints, the i-th
being the sorted value at position `n * (i+1) / binCount` clamped into
`[0, n-1]` (a valid position); the resulting breakpoint list is
non-decreasing (duplicates are allowed by construction); and the
unclamped generate_map.py variant computes the same list. -/
theorem claim_C3 (values : List ℚ) (binCount : ℕ) (hne : values ≠ []) :
    (quantile_breaks values binCount).length = binCount - 1 ∧
    (∀ i, i < binCount - 1 →
      (quantile_breaks values binCount).getD i 0 =
        (values.insertionSort (fun a b => a ≤ b)).getD
          (min (values.length * (i + 1) / binCount) (values.length - 1)) 0 ∧
      min (values.length * (i + 1) / binCount) (values.length - 1) <
        values.length) ∧
    List.Sorted (fun a b => a ≤ b) (quantile_breaks values binCount) ∧
    quantile_breaks_gm values binCount = quantile_breaks values binCount := by
  have hn : 0 < values.length := List.length_pos.mpr hne
  have hsortlen : (values.insertionSort (fun a b => a ≤ b)).length =
      values.length := (List.perm_insertionSort _ _).length_eq
  refine ⟨?_, ?_, ?_, ?_⟩
  · simp [quantile_breaks]
  · intro i hi
    constructor
    · rw [quantile_breaks]
      simp only [List.getD_eq_getElem?_getD, List.getElem?_map,
        List.getElem?_range hi, Option.map_some', Option.getD_some]
    · exact Nat.lt_of_le_of_lt (Nat.min_le_right _ _) (by omega)
  · apply List.pairwise_iff_getElem.mpr
    intro i j hi hj hij
    have hlen : (quantile_breaks values binCount).length = binCount - 1 := by
      simp [quantile_breaks]
    rw [hlen] at hi hj
    simp only [quantile_breaks, List.getElem_map, List.getElem_range]
    apply sorted_getD_le (List.sorted_insertionSort _ _)
    · exact min_le_min
        (Nat.div_le_div_right (Nat.mul_le_mul_left _ (by omega))) (le_refl _)
    · rw [hsortlen]
      exact Nat.lt_of_le_of_lt (Nat.min_le_right _ _) (by omega)
  · rcases Nat.eq_zero_or_pos binCount with h0 | hpos
    · subst h0; rfl
    · rw [quantile_breaks, quantile_breaks_gm]
      apply List.map_congr_left
      intro i hi
      have hilt : i < binCount - 1 := List.mem_range.mp hi
      have h1 : values.length * (i + 1) < values.length * binCount :=
        mul_lt_mul_of_pos_left (by omega) hn
      have hdiv : values.length * (i + 1) / binCount < values.length :=
        (Nat.div_lt_iff_lt_mul hpos).mpr h1
      rw [Nat.min_eq_left (by omega)]

/-- Witness for claim C3 at values `[1..7]` with 7 bins: six breakpoints. -/
theorem claim_C3_witness :
    (quantile_breaks [1, 2, 3, 4, 5, 6, 7] 7).length = 7 - 1 :=
  (claim_C3 [1, 2, 3, 4, 5, 6, 7] 7 (by simp)).1

/-!  GeoFilter theorems. -/

/-- Counterexample to claim C1: the bounds are not applied uniformly.  A
point with latitude exactly 41 passes the establishment filter (inclusive
bounds) but a boundary feature whose first coordinate has latitude
exactly 41 is rejected by `is_mainland_epci`, which uses strict bounds
`41 < lat < 52 and -6 < lng < 10`. -/
theorem claim_C1_counterexample :
    estab_in_bbox 41 (47/20) = true ∧
    is_mainland_epci (mkPolyFeature (47/20) 41) = false := by
  constructor
  · rw [estab_in_bbox]
    norm_num
  · simp only [is_mainland_epci, mkPolyFeature, falsyCoords, coordPath,
      coordIdx, bboxStrictChain, List.get?]
    norm_num

/-- Claim C1 as amended: the establishment filter uses the inclusive
predicate `41 <= lat <= 52 and -6 <= lng <= 10`, while the boundary
fallback applies the strict predicate `-6 < lng < 10 and 41 < lat < 52`
to the first coordinate of the feature; the strict boundary test implies the
inclusive establishment test, so the two only differ on the border of the
box. -/
theorem claim_C1_amended (lat lng : ℚ) :
    (estab_in_bbox lat lng = true ↔
      (41 ≤ lat ∧ lat ≤ 52 ∧ -6 ≤ lng ∧ lng ≤ 10)) ∧
    (is_mainland_epci (mkPolyFeature lng lat) = true ↔
      (-6 < lng ∧ lng < 10 ∧ 41 < lat ∧ lat < 52)) ∧
    (is_mainland_epci (mkPolyFeature lng lat) = true →
      estab_in_bbox lat lng = true) := by
  have h2 : is_mainland_epci (mkPolyFeature lng lat) = true ↔
      (-6 < lng ∧ lng < 10 ∧ 41 < lat ∧ lat < 52) := by
    by_cases h1 : -6 < lng ∧ lng < 10
    · simp only [is_mainland_epci, mkPolyFeature, falsyCoords, coordPath,
        coordIdx, bboxStrictChain, List.get?, if_pos h1]
      simp only [Bool.false_eq_true, if_false, if_true, decide_eq_true_eq]
      tauto
    · simp only [is_mainland_epci, mkPolyFeature, falsyCoords, coordPath,
        coordIdx, bboxStrictChain, List.get?, if_neg h1]
      simp only [Bool.false_eq_true, if_false, if_true, false_iff]
      tauto
  refine ⟨by simp [estab_in_bbox], h2, ?_⟩
  intro h
  obtain ⟨ha, hb, hc, hd⟩ := h2.mp h
  simp only [estab_in_bbox, decide_eq_true_eq]
  exact ⟨le_of_lt hc, le_of_lt hd, le_of_lt ha, le_of_lt hb⟩

/-- Witness for the amended claim C1 at the interior point
lat 42, lng 5. -/
theorem claim_C1_amended_witness : estab_in_bbox 42 5 = true :=
  (claim_C1_amended 42 5).2.2 (by
    simp only [is_mainland_epci, mkPolyFeature, falsyCoords, coordPath,
      coordIdx, bboxStrictChain, List.get?]
    norm_num)

/-!  IsochroneCacheStore theorems. -/

/-- Claim C2: cache reconciliation propagates the strictly larger side
wholesale (memory written to disk, or disk loaded into memory) and leaves
both sides untouched on equal counts. -/
theorem claim_C2 (m d : IsoCache) :
    (d.length < m.length → sync_isochrone_cache (some m) d = (m, m)) ∧
    (m.length < d.length → sync_isochrone_cache (some m) d = (d, d)) ∧
    (m.length = d.length → sync_isochrone_cache (some m) d = (m, d)) := by
  refine ⟨?_, ?_, ?_⟩ <;> intro h
  · rw [sync_isochrone_cache, if_pos h]
  · have h1 : ¬ d.length < m.length := by omega
    rw [sync_isochrone_cache, if_neg h1, if_pos h]
  · have h1 : ¬ d.length < m.length := by omega
    have h2 : ¬ m.length < d.length := by omega
    rw [sync_isochrone_cache, if_neg h1, if_neg h2]

/-- Witness for claim C2: a 5-entry memory cache whose disk counterpart
is a 3-entry proper subset; after reconciliation both sides hold the same
5 entries. -/
theorem claim_C2_witness :
    sync_isochrone_cache
      (some [("a", Coords.list []), ("b", Coords.list []),
             ("c", Coords.list []), ("d", Coords.list []),
             ("e", Coords.list [])])
      [("a", Coords.list []), ("b", Coords.list []), ("c", Coords.list [])] =
    ([("a", Coords.list []), ("b", Coords.list []), ("c", Coords.list []),
      ("d", Coords.list []), ("e", Coords.list [])],
     [("a", Coords.list []), ("b", Coords.list []), ("c", Coords.list []),
      ("d", Coords.list []), ("e", Coords.list [])]) :=
  (claim_C2 _ _).1 (by decide)

/-- Claim C9: loading the isochrone cache never raises — an absent file
and an unparsable file both load as the empty mapping, and a parsable
file loads as its content.  (The embedding is a total function: every
disk state yields a cache.) -/
theorem claim_C9 :
    load_isochrone_cache none = [] ∧
    load_isochrone_cache (some none) = [] ∧
    ∀ c : IsoCache, load_isochrone_cache (some (some c)) = c :=
  ⟨rfl, rfl, fun _ => rfl⟩

/-!  Enrichment theorems. -/

theorem enrich_feature_preserves (q : List (String × ℕ))
    (c : List (String × ChomageRec)) (p : List (String × Option ℚ))
    (n : List (String × Option ℚ)) (s : List (String × SansDiplomeRec))
    (f : Feature) :
    (enrich_feature q c p n s f).geometry = f.geometry ∧
    (enrich_feature q c p n s f).codgeo = f.codgeo ∧
    (enrich_feature q c p n s f).libgeo = f.libgeo := by
  simp only [enrich_feature]
  cases assocFind c f.codgeo <;>
    cases assocFind p (normalize_name f.libgeo) <;>
      cases assocFind n f.codgeo <;>
        cases assocFind s f.codgeo <;>
          exact ⟨rfl, rfl, rfl⟩

/-- Claim C8: enrichment acts on an independent (deep-copied) collection:
`None` maps to `None`, the result is exactly the enrichment of the input
value, and every output feature keeps the geometry, code and name of the
input feature at the same position — geometry and identifying properties
are never rewritten, only indicator attributes are added. -/
theorem claim_C8 (q : List (String × ℕ)) (c : List (String × ChomageRec))
    (p : List (String × Option ℚ)) (n : List (String × Option ℚ))
    (s : List (String × SansDiplomeRec)) (fc : FeatureColl) (i : ℕ) :
    get_epci_with_indicators q c p n s (some fc) =
      some (enrich_features q c p n s fc) ∧
    get_epci_with_indicators q c p n s none = none ∧
    (enrich_features q c p n s fc).features.length = fc.features.length ∧
    ((enrich_features q c p n s fc).features[i]?).map Feature.geometry =
      (fc.features[i]?).map Feature.geometry ∧
    ((enrich_features q c p n s fc).features[i]?).map Feature.codgeo =
      (fc.features[i]?).map Feature.codgeo ∧
    ((enrich_features q c p n s fc).features[i]?).map Feature.libgeo =
      (fc.features[i]?).map Feature.libgeo := by
  refine ⟨rfl, rfl, by simp [enrich_features], ?_, ?_, ?_⟩ <;>
    · rw [enrich_features]
      simp only [List.getElem?_map]
      cases fc.features[i]? with
      | none => rfl
      | some f =>
        simp only [Option.map_some', Option.some_inj]
        first
        | exact (enrich_feature_preserves q c p n s f).1
        | exact (enrich_feature_preserves q c p n s f).2.1
        | exact (enrich_feature_preserves q c p n s f).2.2
